import Mathlib

/-!
Verification of the pitch-shifter audio pipeline.

The program is a small real-time pitch shifter: a pure resampling function
`pitch_shift` (linear interpolation), a capture callback copying a device
block into a shared fixed-capacity buffer, a playback callback resampling the
shared buffer under a lock and writing the result to the output block, and a
command loop mapping keystrokes to a shared pitch factor.

Modelling conventions: `f32` sample values and pitch factors are modelled by
exact rationals (ℚ); float literals `0.7` and `1.3` by `7/10` and `13/10`.
Sample buffers are `List ℚ`.  Rust's float-to-`usize` `as` cast truncates
toward zero and saturates below at 0; it is modelled by `ratToUsize`
(saturation at `usize::MAX` is not modelled, as the abstract model has no
overflowing values).  `f32::fract` is `self - self.trunc()`, modelled by
`ratFract`.
-/

/-- Truncation toward zero of a rational, as Rust's `f32::trunc` behaves on
the real value of a float. -/
def ratTrunc (q : ℚ) : ℤ := if 0 ≤ q then ⌊q⌋ else ⌈q⌉

/-- Rust's `as usize` cast applied to a float value: truncate toward zero and
saturate below at 0. -/
def ratToUsize (q : ℚ) : ℕ := (ratTrunc q).toNat

/-- Rust's `f32::fract`: `self - self.trunc()`. -/
def ratFract (q : ℚ) : ℚ := q - ratTrunc q

/-- The value pushed by one iteration `i` of the loop in `pitch_shift`
(src/main.rs lines 11-20): `src_index = i as f32 * pitch_factor`,
`idx = src_index.floor() as usize`, `frac = src_index.fract()`,
`s1 = samples.get(idx).copied().unwrap_or(0.0)`,
`s2 = samples.get(idx + 1).copied().unwrap_or(0.0)`, pushed value
`s1 + frac * (s2 - s1)`. -/
def pitchShiftValue (samples : List ℚ) (pitch_factor : ℚ) (i : ℕ) : ℚ :=
  let src_index : ℚ := (i : ℚ) * pitch_factor
  let idx : ℕ := (⌊src_index⌋).toNat
  let frac : ℚ := ratFract src_index
  let s1 : ℚ := (samples[idx]?).getD 0
  let s2 : ℚ := (samples[idx + 1]?).getD 0
  s1 + frac * (s2 - s1)

/-- The resampler `pitch_shift` of src/main.rs lines 6-23:
`output_len = (samples.len() as f32 / pitch_factor) as usize`, then one
pushed value per `i in 0..output_len`. -/
def pitch_shift (samples : List ℚ) (pitch_factor : ℚ) : List ℚ :=
  let input_len : ℚ := (samples.length : ℚ)
  let output_len : ℕ := ratToUsize (input_len / pitch_factor)
  (List.range output_len).map (pitchShiftValue samples pitch_factor)

/-- The body of the output-stream callback (src/main.rs lines 63-69): it
resamples the shared buffer contents with the current factor and writes
`*shifted.get(i).unwrap_or(&0.0)` to `output[i]` for each `i` in
`0..output.len()`.  The output block is modelled by its length `outLen`. -/
def playbackCallback (buf : List ℚ) (factor : ℚ) (outLen : ℕ) : List ℚ :=
  let shifted := pitch_shift buf factor
  (List.range outLen).map (fun i => (shifted[i]?).getD 0)

/-- The body of the input-stream callback (src/main.rs lines 48-53):
`for (i, sample) in data.iter().enumerate().take(buf.len()) { buf[i] = *sample; }`.
The fold mirrors the loop: each pair `(i, sample)` of the enumeration of
`data`, cut off at `buf.len()` pairs, assigns slot `i` of the buffer. -/
def captureCallback (buf data : List ℚ) : List ℚ :=
  ((data.enum).take buf.length).foldl (fun b p => b.set p.1 p.2) buf

/-- One step of the command loop of `main` (src/main.rs lines 86-109) as it
acts on the shared pitch factor: command `1` sets `0.7`, `2` sets `1.3`,
`0` sets `1.0`; `q` breaks the loop and every other command prints a message;
neither of the last two touches the factor. -/
def commandStep (factor : ℚ) (cmd : String) : ℚ :=
  if cmd = "1" then 7 / 10
  else if cmd = "2" then 13 / 10
  else if cmd = "0" then 1
  else factor

/-- The per-index output value exactly as the specification's Algorithm
paragraph words it: a fractional source position `p = i * f`, `idx = floor(p)`
(an integer, with no cast to a machine index type), `frac = p - idx`,
`s1 = input[idx]` if `idx` is in bounds else `0.0`, `s2 = input[idx+1]` if
`idx+1` is in bounds else `0.0`, output value `s1 + frac * (s2 - s1)`. -/
def resampleSpecValue (S : List ℚ) (f : ℚ) (i : ℕ) : ℚ :=
  let p : ℚ := (i : ℚ) * f
  let idx : ℤ := ⌊p⌋
  let frac : ℚ := p - (idx : ℚ)
  let s1 : ℚ := if 0 ≤ idx ∧ idx < (S.length : ℤ) then (S[idx.toNat]?).getD 0 else 0
  let s2 : ℚ := if 0 ≤ idx + 1 ∧ idx + 1 < (S.length : ℤ) then (S[(idx + 1).toNat]?).getD 0 else 0
  s1 + frac * (s2 - s1)

lemma ratTrunc_of_nonneg {q : ℚ} (h : 0 ≤ q) : ratTrunc q = ⌊q⌋ := by
  simp [ratTrunc, h]

lemma ratFract_of_nonneg {q : ℚ} (h : 0 ≤ q) : ratFract q = Int.fract q := by
  rw [ratFract, ratTrunc_of_nonneg h, Int.fract]

lemma ratToUsize_of_nonneg {q : ℚ} (h : 0 ≤ q) : (ratToUsize q : ℤ) = ⌊q⌋ := by
  rw [ratToUsize, ratTrunc_of_nonneg h, Int.toNat_of_nonneg (Int.floor_nonneg.2 h)]

lemma ratToUsize_of_neg {q : ℚ} (h : q < 0) : ratToUsize q = 0 := by
  rw [ratToUsize, ratTrunc, if_neg (not_le.2 h)]
  exact Int.toNat_of_nonpos (Int.ceil_le.2 (by exact_mod_cast h.le))

lemma pitch_shift_length_eq (S : List ℚ) (f : ℚ) :
    (pitch_shift S f).length = ratToUsize ((S.length : ℚ) / f) := by
  simp [pitch_shift]

lemma pitch_shift_getElem? (S : List ℚ) (f : ℚ) (i : ℕ)
    (hi : i < (pitch_shift S f).length) :
    (pitch_shift S f)[i]? = some (pitchShiftValue S f i) := by
  rw [pitch_shift] at hi ⊢
  simp only [List.length_map, List.length_range] at hi
  simp [List.getElem?_map, List.getElem?_range, hi]

lemma getD_zero_of_le {S : List ℚ} {k : ℕ} (h : S.length ≤ k) : (S[k]?).getD 0 = 0 := by
  rw [List.getElem?_eq_none h]
  rfl

lemma pitchShiftValue_eq_resampleSpecValue (S : List ℚ) (f : ℚ) (i : ℕ) (hf : 0 < f) :
    pitchShiftValue S f i = resampleSpecValue S f i := by
  have hp : (0 : ℚ) ≤ (i : ℚ) * f := mul_nonneg (Nat.cast_nonneg i) hf.le
  have hn : 0 ≤ ⌊(i : ℚ) * f⌋ := Int.floor_nonneg.2 hp
  simp only [pitchShiftValue, resampleSpecValue, ratFract_of_nonneg hp, Int.fract]
  have hs1 : (S[(⌊(i : ℚ) * f⌋).toNat]?).getD 0
      = if 0 ≤ ⌊(i : ℚ) * f⌋ ∧ ⌊(i : ℚ) * f⌋ < (S.length : ℤ) then
          (S[(⌊(i : ℚ) * f⌋).toNat]?).getD 0 else 0 := by
    by_cases h : ⌊(i : ℚ) * f⌋ < (S.length : ℤ)
    · rw [if_pos ⟨hn, h⟩]
    · rw [if_neg (by tauto), getD_zero_of_le (by omega)]
  have hs2 : (S[(⌊(i : ℚ) * f⌋).toNat + 1]?).getD 0
      = if 0 ≤ ⌊(i : ℚ) * f⌋ + 1 ∧ ⌊(i : ℚ) * f⌋ + 1 < (S.length : ℤ) then
          (S[(⌊(i : ℚ) * f⌋ + 1).toNat]?).getD 0 else 0 := by
    have ht : (⌊(i : ℚ) * f⌋ + 1).toNat = (⌊(i : ℚ) * f⌋).toNat + 1 := by omega
    by_cases h : ⌊(i : ℚ) * f⌋ + 1 < (S.length : ℤ)
    · rw [if_pos ⟨by omega, h⟩, ht]
    · rw [if_neg (by tauto), getD_zero_of_le (by omega)]
  rw [hs1, hs2]
  split_ifs <;> rfl

lemma pitch_shift_zero_two : pitch_shift [0, 2] (1 / 2) = [0, 1, 2, 1] := by
  have h4 : ratToUsize ((([0, 2] : List ℚ).length : ℚ) / (1 / 2)) = 4 := by
    norm_num [ratToUsize, ratTrunc]
    decide
  rw [pitch_shift, h4]
  norm_num [List.range_succ, pitchShiftValue, ratFract, ratTrunc]

/-- C1: for every input sequence `S` and every pitch factor `f > 0`, the
length of `pitch_shift S f` equals `floor(len(S) / f)`. -/
theorem length_resample_eq_floor_div (S : List ℚ) (f : ℚ) (hf : 0 < f) :
    ((pitch_shift S f).length : ℤ) = ⌊(S.length : ℚ) / f⌋ := by
  rw [pitch_shift_length_eq,
    ratToUsize_of_nonneg (div_nonneg (Nat.cast_nonneg _) hf.le)]

/-- Witness for C1 at `S = [0, 2]`, `f = 1/2`. -/
theorem length_resample_eq_floor_div_witness :
    (0 : ℚ) < 1 / 2 ∧
      ((pitch_shift [0, 2] (1 / 2)).length : ℤ) = ⌊(([0, 2] : List ℚ).length : ℚ) / (1 / 2)⌋ :=
  ⟨by norm_num, length_resample_eq_floor_div [0, 2] (1 / 2) (by norm_num)⟩

/-- C2: for `f > 0` and every output index `i`, the `i`-th output of
`pitch_shift S f` equals the specification's interpolation formula
`s1 + frac * (s2 - s1)` with `p = i * f`, `idx = floor p`, `frac = p - idx`,
`s1 = S[idx]` if in bounds else `0`, `s2 = S[idx+1]` if in bounds else `0`;
and in particular `pitch_shift [0, 2] 0.5 = [0, 1, 2, 1]`. -/
theorem resample_value_matches_spec_formula :
    (∀ (S : List ℚ) (f : ℚ), 0 < f → ∀ i : ℕ, i < (pitch_shift S f).length →
        (pitch_shift S f)[i]? = some (resampleSpecValue S f i)) ∧
    pitch_shift [0, 2] (1 / 2) = [0, 1, 2, 1] := by
  refine ⟨fun S f hf i hi => ?_, pitch_shift_zero_two⟩
  rw [pitch_shift_getElem? S f i hi, pitchShiftValue_eq_resampleSpecValue S f i hf]

/-- C3: resampling with factor `1.0` is the identity: same length and the
same value at every index. -/
theorem resample_one_eq_self (S : List ℚ) : pitch_shift S 1 = S := by
  have hlen : (pitch_shift S 1).length = S.length := by
    have h := ratToUsize_of_nonneg (q := (S.length : ℚ)) (Nat.cast_nonneg _)
    rw [Int.floor_natCast] at h
    rw [pitch_shift_length_eq, div_one]
    exact_mod_cast h
  apply List.ext_getElem?
  intro i
  by_cases hi : i < S.length
  · have hi2 : i < (pitch_shift S 1).length := by rw [hlen]; exact hi
    rw [pitch_shift_getElem? S 1 i hi2, List.getElem?_eq_getElem hi]
    have hv : pitchShiftValue S 1 i = S[i] := by
      simp [pitchShiftValue, ratFract, ratTrunc_of_nonneg (q := (i : ℚ)) (Nat.cast_nonneg i),
        mul_one, Int.floor_natCast, List.getElem?_eq_getElem hi]
    rw [hv]
  · rw [List.getElem?_eq_none (le_of_not_lt hi),
      List.getElem?_eq_none (by rw [hlen]; exact le_of_not_lt hi)]

/-- C8: the resampler never faults: the empty input yields the empty output,
and an output index whose source index `floor(i * f)` falls at or beyond the
input bounds contributes `0` (both neighbour reads miss and default to `0`). -/
theorem resample_never_fails_zero_pads :
    (∀ f : ℚ, pitch_shift [] f = []) ∧
    (∀ (S : List ℚ) (f : ℚ) (i : ℕ), 0 < f →
        S.length ≤ (⌊(i : ℚ) * f⌋).toNat → pitchShiftValue S f i = 0) := by
  constructor
  · intro f
    rw [pitch_shift]
    simp [ratToUsize, ratTrunc]
  · intro S f i _ hle
    simp only [pitchShiftValue]
    rw [getD_zero_of_le hle, getD_zero_of_le (le_trans hle (Nat.le_succ _))]
    ring

/-- C9: a negative pitch factor yields the empty output, because the negative
computed length is clamped to 0 by the float-to-usize cast. -/
theorem resample_negative_factor_empty (S : List ℚ) (f : ℚ) (hf : f < 0) :
    pitch_shift S f = [] := by
  rw [pitch_shift]
  cases S with
  | nil => simp [ratToUsize, ratTrunc]
  | cons a l =>
    have hL : (0 : ℚ) < (((a :: l).length : ℕ) : ℚ) := by
      exact_mod_cast Nat.succ_pos l.length
    rw [ratToUsize_of_neg (div_neg_of_pos_of_neg hL hf)]
    simp

/-- Witness for C9 at `S = [1, 2]`, `f = -1`. -/
theorem resample_negative_factor_empty_witness :
    (-1 : ℚ) < 0 ∧ pitch_shift [1, 2] (-1) = [] :=
  ⟨by norm_num, resample_negative_factor_empty [1, 2] (-1) (by norm_num)⟩

/-- C4: the playback callback writes an output block of exactly the requested
length; each position below the resampled length receives the corresponding
resampled value, and each position at or beyond the resampled length receives
silence `0`. -/
theorem playback_writes_resampled_then_silence (buf : List ℚ) (factor : ℚ) (outLen : ℕ) :
    (playbackCallback buf factor outLen).length = outLen ∧
    (∀ i : ℕ, i < outLen → i < (pitch_shift buf factor).length →
        (playbackCallback buf factor outLen)[i]? = (pitch_shift buf factor)[i]?) ∧
    (∀ i : ℕ, (pitch_shift buf factor).length ≤ i → i < outLen →
        (playbackCallback buf factor outLen)[i]? = some 0) := by
  have hmap : ∀ i : ℕ, i < outLen →
      (playbackCallback buf factor outLen)[i]?
        = some (((pitch_shift buf factor)[i]?).getD 0) := by
    intro i hi
    rw [playbackCallback]
    simp [List.getElem?_map, List.getElem?_range, hi]
  refine ⟨by simp [playbackCallback], fun i hi hlt => ?_, fun i hge hi => ?_⟩
  · rw [hmap i hi, List.getElem?_eq_getElem hlt]
    rfl
  · rw [hmap i hi, List.getElem?_eq_none hge]
    rfl

lemma captureCallback_nil_buf (data : List ℚ) : captureCallback [] data = [] := by
  simp [captureCallback]

lemma captureCallback_nil_data (buf : List ℚ) : captureCallback buf [] = buf := by
  simp [captureCallback]

lemma foldl_set_enumFrom_succ (ds : List ℚ) (k n : ℕ) (x : ℚ) (l : List ℚ) :
    ((List.enumFrom (n + 1) ds).take k).foldl (fun b p => b.set p.1 p.2) (x :: l)
      = x :: ((List.enumFrom n ds).take k).foldl (fun b p => b.set p.1 p.2) l := by
  induction ds generalizing k n l with
  | nil => simp
  | cons d ds ih =>
    cases k with
    | zero => simp
    | succ k =>
      rw [List.enumFrom_cons, List.enumFrom_cons, List.take_succ_cons, List.take_succ_cons,
        List.foldl_cons, List.foldl_cons]
      exact ih k (n + 1) (l.set n d)

lemma captureCallback_cons (b d : ℚ) (bs ds : List ℚ) :
    captureCallback (b :: bs) (d :: ds) = d :: captureCallback bs ds := by
  rw [captureCallback, captureCallback, List.enum_cons, List.length_cons,
    List.take_succ_cons, List.foldl_cons]
  exact foldl_set_enumFrom_succ ds bs.length 0 d bs

lemma captureCallback_getElem? (buf data : List ℚ) (i : ℕ) :
    (captureCallback buf data)[i]?
      = if i < min data.length buf.length then data[i]? else buf[i]? := by
  induction buf generalizing data i with
  | nil => simp [captureCallback_nil_buf]
  | cons b bs ih =>
    cases data with
    | nil => simp [captureCallback_nil_data]
    | cons d ds =>
      rw [captureCallback_cons]
      cases i with
      | zero => simp
      | succ i =>
        rw [List.getElem?_cons_succ, List.getElem?_cons_succ, List.getElem?_cons_succ, ih ds i]
        by_cases h : i < min ds.length bs.length
        · rw [if_pos h, if_pos (by simp at h ⊢; omega)]
        · rw [if_neg h, if_neg (by simp at h ⊢; omega)]

/-- C5: the capture callback keeps the buffer length, overwrites exactly the
first `min (data.length) (buf.length)` slots with the block's leading samples
(excess input beyond the capacity is discarded), and leaves every slot at
index at or beyond `min (data.length) (buf.length)` at its previous value. -/
theorem capture_overwrites_prefix_only (buf data : List ℚ) :
    (captureCallback buf data).length = buf.length ∧
    (∀ i : ℕ, i < min data.length buf.length →
        (captureCallback buf data)[i]? = data[i]?) ∧
    (∀ i : ℕ, min data.length buf.length ≤ i →
        (captureCallback buf data)[i]? = buf[i]?) := by
  refine ⟨?_, fun i hi => ?_, fun i hi => ?_⟩
  · induction buf generalizing data with
    | nil => simp [captureCallback_nil_buf]
    | cons b bs ih =>
      cases data with
      | nil => rw [captureCallback_nil_data]
      | cons d ds => rw [captureCallback_cons, List.length_cons, List.length_cons, ih ds]
  · rw [captureCallback_getElem?, if_pos hi]
  · rw [captureCallback_getElem?, if_neg (not_lt.2 hi)]

lemma foldr_min_le_mem {S : List ℚ} {a : ℚ} (h : a ∈ S) : S.foldr min 0 ≤ a := by
  induction S with
  | nil => cases h
  | cons b bs ih =>
    rcases List.mem_cons.1 h with rfl | h2
    · exact min_le_left _ _
    · exact le_trans (min_le_right _ _) (ih h2)

lemma foldr_min_nonpos (S : List ℚ) : S.foldr min 0 ≤ 0 := by
  induction S with
  | nil => exact le_refl 0
  | cons b bs ih => exact le_trans (min_le_right _ _) ih

lemma le_foldr_max_mem {S : List ℚ} {a : ℚ} (h : a ∈ S) : a ≤ S.foldr max 0 := by
  induction S with
  | nil => cases h
  | cons b bs ih =>
    rcases List.mem_cons.1 h with rfl | h2
    · exact le_max_left _ _
    · exact le_trans (ih h2) (le_max_right _ _)

lemma foldr_max_nonneg (S : List ℚ) : 0 ≤ S.foldr max 0 := by
  induction S with
  | nil => exact le_refl 0
  | cons b bs ih => exact le_trans ih (le_max_right _ _)

lemma getD_mem_envelope (S : List ℚ) (k : ℕ) :
    S.foldr min 0 ≤ (S[k]?).getD 0 ∧ (S[k]?).getD 0 ≤ S.foldr max 0 := by
  cases hk : S[k]? with
  | none => exact ⟨foldr_min_nonpos S, foldr_max_nonneg S⟩
  | some a =>
    have ha : a ∈ S := List.getElem?_mem hk
    exact ⟨foldr_min_le_mem ha, le_foldr_max_mem ha⟩

/-- C10: for a positive factor, every output value is a convex combination of
two values each drawn from the input or equal to `0`, so it lies between
`min 0 (min of S)` and `max 0 (max of S)` (here `S.foldr min 0` and
`S.foldr max 0`). -/
theorem resample_within_input_envelope (S : List ℚ) (f : ℚ) (hf : 0 < f) :
    ∀ x ∈ pitch_shift S f, S.foldr min 0 ≤ x ∧ x ≤ S.foldr max 0 := by
  intro x hx
  rw [pitch_shift] at hx
  simp only [List.mem_map, List.mem_range] at hx
  obtain ⟨i, _, rfl⟩ := hx
  have hp : (0 : ℚ) ≤ (i : ℚ) * f := mul_nonneg (Nat.cast_nonneg i) hf.le
  simp only [pitchShiftValue, ratFract_of_nonneg hp]
  obtain ⟨h1lo, h1hi⟩ := getD_mem_envelope S (⌊(i : ℚ) * f⌋).toNat
  obtain ⟨h2lo, h2hi⟩ := getD_mem_envelope S ((⌊(i : ℚ) * f⌋).toNat + 1)
  have ht0 : 0 ≤ Int.fract ((i : ℚ) * f) := Int.fract_nonneg _
  have ht1 : Int.fract ((i : ℚ) * f) ≤ 1 := (Int.fract_lt_one _).le
  constructor
  · nlinarith [mul_nonneg (sub_nonneg.2 ht1) (sub_nonneg.2 h1lo),
      mul_nonneg ht0 (sub_nonneg.2 h2lo)]
  · nlinarith [mul_nonneg (sub_nonneg.2 ht1) (sub_nonneg.2 h1hi),
      mul_nonneg ht0 (sub_nonneg.2 h2hi)]

lemma pitch_shift_three_five : pitch_shift [3, 5] 2 = [3] := by
  have h1 : ratToUsize ((([3, 5] : List ℚ).length : ℚ) / 2) = 1 := by
    norm_num [ratToUsize, ratTrunc]
  rw [pitch_shift, h1]
  norm_num [List.range_succ, pitchShiftValue, ratFract, ratTrunc]

/-- Witness for C10 at `S = [3, 5]`, `f = 2`, whose single output value is
`3`. -/
theorem resample_within_input_envelope_witness :
    (0 : ℚ) < 2 ∧
      (([3, 5] : List ℚ).foldr min 0 ≤ 3 ∧ (3 : ℚ) ≤ ([3, 5] : List ℚ).foldr max 0) :=
  ⟨by norm_num, resample_within_input_envelope [3, 5] 2 (by norm_num) 3
    (by rw [pitch_shift_three_five]; exact List.mem_singleton.2 rfl)⟩

/-- C7: one command-loop step sets the factor to `0.7` on `1`, to `1.3` on
`2`, to `1.0` on `0`, and leaves it unchanged on any other command; starting
from the initial factor `1.0`, the factor after any command sequence is
strictly positive. -/
theorem pitch_control_presets_and_positive :
    (∀ g : ℚ, commandStep g "1" = 7 / 10 ∧ commandStep g "2" = 13 / 10 ∧
        commandStep g "0" = 1) ∧
    (∀ (g : ℚ) (c : String), c ≠ "1" → c ≠ "2" → c ≠ "0" → commandStep g c = g) ∧
    (∀ cmds : List String, 0 < cmds.foldl commandStep 1) := by
  have step : ∀ (g : ℚ), 0 < g → ∀ c : String, 0 < commandStep g c := by
    intro g hg c
    rw [commandStep]
    split_ifs <;> first | exact hg | norm_num
  have gen : ∀ (cmds : List String) (g : ℚ), 0 < g → 0 < cmds.foldl commandStep g := by
    intro cmds
    induction cmds with
    | nil => exact fun g hg => hg
    | cons c cs ih =>
      intro g hg
      rw [List.foldl_cons]
      exact ih _ (step g hg c)
  refine ⟨fun g => ⟨?_, ?_, ?_⟩, fun g c h1 h2 h0 => ?_, fun cmds => gen cmds 1 one_pos⟩
  · simp [commandStep]
  · simp [commandStep]
  · simp [commandStep]
  · simp [commandStep, h1, h2, h0]

/-- Atomic actions of the two audio callbacks on the shared state, in the
order the source performs them: lock acquisitions and releases of the
SharedFrame buffer and of the PitchControl scalar, the raw accesses made
under them, the resampling pass, and the writes to the device block. -/
inductive AudioEvent where
  | acquireFrame : AudioEvent
  | readFrame : AudioEvent
  | writeFrame : AudioEvent
  | releaseFrame : AudioEvent
  | acquirePitch : AudioEvent
  | readPitch : AudioEvent
  | releasePitch : AudioEvent
  | resample : AudioEvent
  | writeOutput : AudioEvent
deriving DecidableEq

/-- The event trace of one output-stream callback run (src/main.rs lines
63-69).  The binding `let buf = buffer_out.lock().unwrap()` holds the
SharedFrame guard until the end of the closure body, so its release is the
last event; the PitchControl guard in `*pitch_shared.lock().unwrap()` is a
temporary dropped at the end of its own statement, so it is released before
`pitch_shift` runs. -/
def playbackEvents : List AudioEvent :=
  [AudioEvent.acquireFrame, AudioEvent.readFrame, AudioEvent.acquirePitch,
   AudioEvent.readPitch, AudioEvent.releasePitch, AudioEvent.resample,
   AudioEvent.writeOutput, AudioEvent.releaseFrame]

/-- The event trace of one input-stream callback run (src/main.rs lines
48-53): acquire the SharedFrame guard, copy the block in, release at the end
of the closure body.  No resampling happens here. -/
def captureEvents : List AudioEvent :=
  [AudioEvent.acquireFrame, AudioEvent.writeFrame, AudioEvent.releaseFrame]

/-- The SharedFrame lock is held while the event at position `i` of the trace
runs: strictly more acquisitions than releases precede it. -/
def frameHeldAt (tr : List AudioEvent) (i : ℕ) : Prop :=
  (tr.take i).count AudioEvent.releaseFrame < (tr.take i).count AudioEvent.acquireFrame

/-- The PitchControl lock is held while the event at position `i` of the
trace runs. -/
def pitchHeldAt (tr : List AudioEvent) (i : ℕ) : Prop :=
  (tr.take i).count AudioEvent.releasePitch < (tr.take i).count AudioEvent.acquirePitch

instance frameHeldAtDecidable (tr : List AudioEvent) (i : ℕ) : Decidable (frameHeldAt tr i) :=
  inferInstanceAs (Decidable (_ < _))

instance pitchHeldAtDecidable (tr : List AudioEvent) (i : ℕ) : Decidable (pitchHeldAt tr i) :=
  inferInstanceAs (Decidable (_ < _))

/-- Counterexample to C6: in the playback callback the resampling pass (the
event at position 5) runs while the SharedFrame lock is held, because the
guard bound to `buf` is only dropped at the end of the closure body. -/
theorem playback_resample_holds_frame_lock :
    playbackEvents[5]? = some AudioEvent.resample ∧ frameHeldAt playbackEvents 5 := by
  decide

/-- C6 as amended: wherever the resampling pass occurs in the playback trace,
the PitchControl lock is already released, but the SharedFrame lock is still
held; the capture trace performs no resampling at all. -/
theorem playback_lock_discipline :
    (∀ i < playbackEvents.length, playbackEvents[i]? = some AudioEvent.resample →
        ¬ pitchHeldAt playbackEvents i ∧ frameHeldAt playbackEvents i) ∧
    AudioEvent.resample ∉ captureEvents := by
  decide
